import Mathlib

/-!
# Verification of the quantum tic-tac-toe move engine

Shallow embedding of `src/backend/quantumEngine.js`.  The board is a
9-cell array whose cells hold `null`, `'X'` or `'O'`; here a cell is
`Option Player`.  The quantum-circuit feature extraction
(`encodeBoard` / `extractQuantumFeatures`) is an external floating-point
library call whose outputs (`entropy`, `purity`, `dominantStates`) only
feed bounded tie-breaking bonuses; it is modelled as a parameter
`feat : Board → QFeatures` together with the bounds (`FeatOK`) that the
real library guarantees (entropy of a 16-outcome distribution lies in
[0,4], purity and each probability in [0,1]).
-/

inductive Player where
  | X : Player
  | O : Player
deriving DecidableEq, Repr

instance : Fintype Player := ⟨⟨{Player.X, Player.O}, by simp⟩, by intro x; cases x <;> simp⟩

/-- A board cell: `null`, `'X'` or `'O'`. -/
abbrev Cell := Option Player

/-- The 9-cell board, row-major as in the JS array. -/
abbrev Board := Fin 9 → Cell

/-- The 8 win patterns (rows, columns, diagonals) of `quantumEngine.js`. -/
def winPatterns : List (Fin 9 × Fin 9 × Fin 9) :=
  [(0, 1, 2), (3, 4, 5), (6, 7, 8),
   (0, 3, 6), (1, 4, 7), (2, 5, 8),
   (0, 4, 8), (2, 4, 6)]

/-- `isWinningMove(board, cellIndex, symbol)`: occupied cells report
`false`; otherwise place `symbol` hypothetically and look for a
completed line. -/
def isWinningMove (b : Board) (c : Fin 9) (s : Player) : Bool :=
  if (b c).isSome then false
  else
    let t := Function.update b c (some s)
    winPatterns.any fun L =>
      t L.1 == some s && t L.2.1 == some s && t L.2.2 == some s

/-- `findAllWinningMoves(board, symbol)`: every cell index whose move wins. -/
def findAllWinningMoves (b : Board) (s : Player) : List (Fin 9) :=
  (List.finRange 9).filter fun i => isWinningMove b i s

/-- `createsFork(board, cellIndex, symbol)`: place `symbol`
hypothetically (with no emptiness check), count the lines holding
exactly two of `symbol` and one empty cell, and report whether at least
two such threats exist. -/
def createsFork (b : Board) (c : Fin 9) (s : Player) : Bool :=
  let t := Function.update b c (some s)
  let threats := (winPatterns.filter fun L =>
    let cells := [t L.1, t L.2.1, t L.2.2]
    ((cells.filter fun x => x == some s).length == 2) &&
    ((cells.filter fun x => x == none).length == 1)).length
  decide (2 ≤ threats)

/-- Output of `extractQuantumFeatures`: the entropy and purity scalars
and the top probability states (`state`, `prob`). -/
structure QFeatures where
  entropy : ℚ
  purity : ℚ
  dominantStates : List (ℕ × ℚ)

/-- Bounds guaranteed by the real feature extraction: the entropy of a
16-outcome distribution lies in `[0, 4]`, purity and every probability
lie in `[0, 1]`. -/
def FeatOK (feat : Board → QFeatures) : Prop :=
  ∀ b : Board,
    0 ≤ (feat b).entropy ∧ (feat b).entropy ≤ 4 ∧
    0 ≤ (feat b).purity ∧ (feat b).purity ≤ 1 ∧
    ∀ p ∈ (feat b).dominantStates, 0 ≤ p.2 ∧ p.2 ≤ 1

/-- A concrete feature map used to instantiate the theorems. -/
def constFeatures : Board → QFeatures := fun _ => ⟨0, 0, [(0, 0)]⟩

theorem constFeatures_ok : FeatOK constFeatures := by
  intro b
  refine ⟨le_refl 0, by simp [constFeatures], le_refl 0, by simp [constFeatures], ?_⟩
  intro p hp
  simp [constFeatures] at hp
  simp [hp]

/-- The four corner cells `[0, 2, 6, 8]`. -/
def cornerCells : List (Fin 9) := [0, 2, 6, 8]

/-- The four edge cells `[1, 3, 5, 7]`. -/
def edgeCells : List (Fin 9) := [1, 3, 5, 7]

/-- The opposite-corner loop of `scoreMove` over the pairs
`[[0, 8], [2, 6]]`, unrolled: each of the four guards adds 2500. -/
def oppCornerBonus (b : Board) (c : Fin 9) : ℚ :=
  (if b 0 = some Player.X ∧ b 8 = none ∧ c = 8 then 2500 else 0) +
  (if b 8 = some Player.X ∧ b 0 = none ∧ c = 0 then 2500 else 0) +
  (if b 2 = some Player.X ∧ b 6 = none ∧ c = 6 then 2500 else 0) +
  (if b 6 = some Player.X ∧ b 2 = none ∧ c = 2 then 2500 else 0)

/-- The opposite-corner condition: some guard of the loop fires. -/
def oppCornerCond (b : Board) (c : Fin 9) : Prop :=
  (b 0 = some Player.X ∧ b 8 = none ∧ c = 8) ∨
  (b 8 = some Player.X ∧ b 0 = none ∧ c = 0) ∨
  (b 2 = some Player.X ∧ b 6 = none ∧ c = 6) ∨
  (b 6 = some Player.X ∧ b 2 = none ∧ c = 2)

instance (b : Board) (c : Fin 9) : Decidable (oppCornerCond b c) := by
  unfold oppCornerCond; infer_instance

/-- Score accumulated by `scoreMove` after the win/block branches: the
`+=` contributions of priorities 3–7, the quantum-feature bonuses, and
the edge bonus, in source order. -/
def elseScore (f : QFeatures) (b : Board) (c : Fin 9) : ℚ :=
  (if createsFork b c Player.O then (5000 : ℚ) else 0) +
  (if createsFork b c Player.X then 4000 else 0) +
  (if c = 4 ∧ b 4 = none then 3000 else 0) +
  oppCornerBonus b c +
  (if c ∈ cornerCells then 2000 else 0) +
  (4 - f.entropy) * 10 +
  f.purity * 50 +
  (if f.dominantStates.any fun p => p.1 % 9 == c.val then 30 else 0) +
  (f.dominantStates.headD (0, 0)).2 * 20 +
  (if c ∈ edgeCells then 500 else 0)

/-- Strategy tag computed by the same branch: `fork`, `block_fork`,
`center` and `opposite_corner` assign unconditionally, while the
`corner` and `edge` tiers only replace a still-default `quantum` tag. -/
def elseTag (b : Board) (c : Fin 9) : String :=
  let t1 := if createsFork b c Player.O then "fork" else "quantum"
  let t2 := if createsFork b c Player.X then "block_fork" else t1
  let t3 := if c = 4 ∧ b 4 = none then "center" else t2
  let t4 := if oppCornerCond b c then "opposite_corner" else t3
  let t5 := if c ∈ cornerCells then (if t4 = "quantum" then "corner" else t4) else t4
  if c ∈ edgeCells then (if t5 = "quantum" then "edge" else t5) else t5

/-- Return value of `scoreMove`: the score (`⊥` models the JS
`-Infinity`), the optional `(entropy, purity)` display pair, and the
strategy tag. -/
structure ScoreResult where
  score : WithBot ℚ
  features : Option (ℚ × ℚ)
  strategy : String

/-- `scoreMove(boardState, cellIndex)` for symbol `'O'` against
opponent `'X'`: occupied cell → `-Infinity`/`invalid`; immediate win →
100000/`WINNING MOVE!`; block → 90000/`BLOCK WIN!`; otherwise the
cumulative heuristic score with its tag. -/
def scoreMove (feat : Board → QFeatures) (b : Board) (c : Fin 9) : ScoreResult :=
  if (b c).isSome then ⟨⊥, none, "invalid"⟩
  else if isWinningMove b c Player.O then
    let f := feat (Function.update b c (some Player.O))
    ⟨(100000 : ℚ), some (f.entropy, f.purity), "WINNING MOVE!"⟩
  else if isWinningMove b c Player.X then
    let f := feat (Function.update b c (some Player.O))
    ⟨(90000 : ℚ), some (f.entropy, f.purity), "BLOCK WIN!"⟩
  else
    let f := feat (Function.update b c (some Player.O))
    ⟨(elseScore f b c : ℚ), some (f.entropy, f.purity), elseTag b c⟩

/-- One row of the `moveAnalysis` array built by `simulateQuantumMove`. -/
structure MoveEntry where
  cellIndex : Fin 9
  score : WithBot ℚ
  entropy : ℚ
  purity : ℚ
  strategy : String

/-- The `moveAnalysis` row pushed for an empty cell. -/
def mkEntry (feat : Board → QFeatures) (b : Board) (i : Fin 9) : MoveEntry :=
  let r := scoreMove feat b i
  ⟨i, r.score, (r.features.getD (0, 0)).1, (r.features.getD (0, 0)).2, r.strategy⟩

/-- The unsorted `moveAnalysis` list: one entry per empty cell, in
ascending cell-index order. -/
def entries (feat : Board → QFeatures) (b : Board) : List MoveEntry :=
  (List.finRange 9).filterMap fun i =>
    if b i = none then some (mkEntry feat b i) else none

/-- The comparator `(a, b) => b.score - a.score` as an ordering:
descending by score. -/
def scoreGe (x y : MoveEntry) : Prop := y.score ≤ x.score

instance : IsTotal MoveEntry scoreGe := ⟨fun a b => le_total b.score a.score⟩

instance : IsTrans MoveEntry scoreGe := ⟨fun _ _ _ h1 h2 => le_trans h2 h1⟩

instance : DecidableRel scoreGe := fun a b =>
  inferInstanceAs (Decidable (b.score ≤ a.score))

/-- The `moveAnalysis` list after the stable descending sort
(`Array.prototype.sort` is stable). -/
def sortedEntries (feat : Board → QFeatures) (b : Board) : List MoveEntry :=
  List.insertionSort scoreGe (entries feat b)

/-- Result of `simulateQuantumMove` (display-only `rawQuantumResult`
fields omitted). -/
structure SimResult where
  chosenCell : Fin 9
  moveAnalysis : List MoveEntry
  symbol : String

/-- `simulateQuantumMove(boardState)`: score every empty cell, sort
descending by score, and take the first entry as the chosen move.  On a
full board `moveAnalysis` is empty and reading `moveAnalysis[0].cellIndex`
throws, modelled by `none`. -/
def simulateQuantumMove (feat : Board → QFeatures) (b : Board) : Option SimResult :=
  let sorted := sortedEntries feat b
  match sorted.head? with
  | none => none
  | some chosen => some ⟨chosen.cellIndex, sorted, "O"⟩

/-! ## Basic facts about `scoreMove` -/

theorem win_empty {b : Board} {c : Fin 9} {s : Player}
    (h : isWinningMove b c s = true) : b c = none := by
  by_contra hne
  have hs : (b c).isSome := Option.ne_none_iff_isSome.mp hne
  simp [isWinningMove, hs] at h

theorem mkEntry_cellIndex (feat : Board → QFeatures) (b : Board) (i : Fin 9) :
    (mkEntry feat b i).cellIndex = i := rfl

theorem mkEntry_score (feat : Board → QFeatures) (b : Board) (i : Fin 9) :
    (mkEntry feat b i).score = (scoreMove feat b i).score := rfl

theorem mkEntry_strategy (feat : Board → QFeatures) (b : Board) (i : Fin 9) :
    (mkEntry feat b i).strategy = (scoreMove feat b i).strategy := rfl

theorem scoreMove_win (feat : Board → QFeatures) {b : Board} {c : Fin 9}
    (h : isWinningMove b c Player.O = true) :
    (scoreMove feat b c).score = ((100000 : ℚ) : WithBot ℚ) ∧
      (scoreMove feat b c).strategy = "WINNING MOVE!" := by
  have he : b c = none := win_empty h
  constructor <;> simp [scoreMove, he, h]

theorem scoreMove_block (feat : Board → QFeatures) {b : Board} {c : Fin 9}
    (hno : isWinningMove b c Player.O = false)
    (hx : isWinningMove b c Player.X = true) :
    (scoreMove feat b c).score = ((90000 : ℚ) : WithBot ℚ) ∧
      (scoreMove feat b c).strategy = "BLOCK WIN!" := by
  have he : b c = none := win_empty hx
  constructor <;> simp [scoreMove, he, hno, hx]

theorem scoreMove_else (feat : Board → QFeatures) {b : Board} {c : Fin 9}
    (he : b c = none)
    (hno : isWinningMove b c Player.O = false)
    (hnx : isWinningMove b c Player.X = false) :
    (scoreMove feat b c).score =
      ((elseScore (feat (Function.update b c (some Player.O))) b c : ℚ) : WithBot ℚ) ∧
      (scoreMove feat b c).strategy = elseTag b c := by
  constructor <;> simp [scoreMove, he, hno, hnx]

/-- The cumulative heuristic score stays far below the 90000 block
tier: every classical bonus is a bounded constant and the feature
bonuses are bounded by the `FeatOK` ranges. -/
theorem elseScore_lt_block {f : QFeatures} (h0 : 0 ≤ f.entropy) (h1 : f.purity ≤ 1)
    (h2 : ∀ p ∈ f.dominantStates, 0 ≤ p.2 ∧ p.2 ≤ 1) (b : Board) (c : Fin 9) :
    elseScore f b c < 90000 := by
  have hd : (f.dominantStates.headD (0, 0)).2 ≤ 1 := by
    cases hds : f.dominantStates with
    | nil => simp
    | cons a l =>
        have := (h2 a (by rw [hds]; exact List.mem_cons_self a l)).2
        simpa using this
  have b1 : (if createsFork b c Player.O then (5000 : ℚ) else 0) ≤ 5000 := by
    split <;> norm_num
  have b2 : (if createsFork b c Player.X then (4000 : ℚ) else 0) ≤ 4000 := by
    split <;> norm_num
  have b3 : (if c = 4 ∧ b 4 = none then (3000 : ℚ) else 0) ≤ 3000 := by
    split <;> norm_num
  have b4 : oppCornerBonus b c ≤ 10000 := by
    unfold oppCornerBonus
    split_ifs <;> norm_num
  have b5 : (if c ∈ cornerCells then (2000 : ℚ) else 0) ≤ 2000 := by
    split <;> norm_num
  have b6 : (4 - f.entropy) * 10 ≤ 40 := by linarith
  have b7 : f.purity * 50 ≤ 50 := by linarith
  have b8 : (if f.dominantStates.any fun p => p.1 % 9 == c.val then (30 : ℚ) else 0) ≤ 30 := by
    split <;> norm_num
  have b9 : (f.dominantStates.headD (0, 0)).2 * 20 ≤ 20 := by linarith
  have b10 : (if c ∈ edgeCells then (500 : ℚ) else 0) ≤ 500 := by
    split <;> norm_num
  unfold elseScore
  linarith

/-- A legal non-win non-block candidate scores strictly below 90000. -/
theorem scoreMove_lt_block (feat : Board → QFeatures) (hf : FeatOK feat)
    {b : Board} {c : Fin 9} (he : b c = none)
    (hno : isWinningMove b c Player.O = false)
    (hnx : isWinningMove b c Player.X = false) :
    (scoreMove feat b c).score < ((90000 : ℚ) : WithBot ℚ) := by
  obtain ⟨he0, _, _, hp1, hd⟩ := hf (Function.update b c (some Player.O))
  rw [(scoreMove_else feat he hno hnx).1]
  exact_mod_cast elseScore_lt_block he0 hp1 hd b c

/-- A legal candidate that is not an immediate win for O scores
strictly below 100000. -/
theorem scoreMove_lt_win (feat : Board → QFeatures) (hf : FeatOK feat)
    {b : Board} {c : Fin 9} (he : b c = none)
    (hno : isWinningMove b c Player.O = false) :
    (scoreMove feat b c).score < ((100000 : ℚ) : WithBot ℚ) := by
  by_cases hx : isWinningMove b c Player.X = true
  · rw [(scoreMove_block feat hno hx).1]
    exact_mod_cast (by norm_num : (90000 : ℚ) < 100000)
  · have hnx : isWinningMove b c Player.X = false := by
      simpa using hx
    refine lt_trans (scoreMove_lt_block feat hf he hno hnx) ?_
    exact_mod_cast (by norm_num : (90000 : ℚ) < 100000)

/-- A legal candidate never carries the `-Infinity` score or the
`invalid` tag. -/
theorem scoreMove_legal (feat : Board → QFeatures) {b : Board} {c : Fin 9}
    (he : b c = none) :
    (scoreMove feat b c).score ≠ ⊥ ∧ (scoreMove feat b c).strategy ≠ "invalid" := by
  by_cases ho : isWinningMove b c Player.O = true
  · obtain ⟨hs, ht⟩ := scoreMove_win feat ho
    rw [hs, ht]
    exact ⟨WithBot.coe_ne_bot, by decide⟩
  · have hno : isWinningMove b c Player.O = false := by simpa using ho
    by_cases hx : isWinningMove b c Player.X = true
    · obtain ⟨hs, ht⟩ := scoreMove_block feat hno hx
      rw [hs, ht]
      exact ⟨WithBot.coe_ne_bot, by decide⟩
    · have hnx : isWinningMove b c Player.X = false := by simpa using hx
      obtain ⟨hs, ht⟩ := scoreMove_else feat he hno hnx
      rw [hs, ht]
      refine ⟨WithBot.coe_ne_bot, ?_⟩
      unfold elseTag
      split_ifs <;> simp

/-! ## Facts about the candidate enumeration and the sort -/

theorem mem_entries {feat : Board → QFeatures} {b : Board} {m : MoveEntry} :
    m ∈ entries feat b ↔ ∃ i, b i = none ∧ m = mkEntry feat b i := by
  unfold entries
  rw [List.mem_filterMap]
  constructor
  · rintro ⟨i, -, hi⟩
    by_cases h : b i = none
    · rw [if_pos h] at hi
      exact ⟨i, h, (Option.some_inj.mp hi).symm⟩
    · rw [if_neg h] at hi
      cases hi
  · rintro ⟨i, h, rfl⟩
    exact ⟨i, List.mem_finRange i, by rw [if_pos h]⟩

theorem entries_map_cellIndex (feat : Board → QFeatures) (b : Board) :
    (entries feat b).map (fun m => m.cellIndex) =
      (List.finRange 9).filter (fun i => decide (b i = none)) := by
  unfold entries
  induction List.finRange 9 with
  | nil => rfl
  | cons a l ih =>
      by_cases h : b a = none
      · simp [List.filterMap_cons, List.filter_cons, h, ih, mkEntry_cellIndex]
      · simp [List.filterMap_cons, List.filter_cons, h, ih]

theorem entries_ne_nil {feat : Board → QFeatures} {b : Board}
    (h : ∃ i, b i = none) : entries feat b ≠ [] := by
  obtain ⟨i, hi⟩ := h
  exact List.ne_nil_of_mem (mem_entries.mpr ⟨i, hi, rfl⟩)

theorem sortedEntries_perm (feat : Board → QFeatures) (b : Board) :
    List.Perm (sortedEntries feat b) (entries feat b) :=
  List.perm_insertionSort scoreGe (entries feat b)

theorem sortedEntries_sorted (feat : Board → QFeatures) (b : Board) :
    List.Sorted scoreGe (sortedEntries feat b) :=
  List.sorted_insertionSort scoreGe (entries feat b)

/-- Master lemma: on a board with an empty cell, `simulateQuantumMove`
returns the head of the sorted candidate list; that head is the entry
of some empty cell and its score dominates every empty cell's score. -/
theorem sim_spec (feat : Board → QFeatures) (b : Board)
    (h : ∃ i, b i = none) :
    ∃ h0, (sortedEntries feat b).head? = some h0 ∧
      simulateQuantumMove feat b = some ⟨h0.cellIndex, sortedEntries feat b, "O"⟩ ∧
      b h0.cellIndex = none ∧
      h0.score = (scoreMove feat b h0.cellIndex).score ∧
      h0.strategy = (scoreMove feat b h0.cellIndex).strategy ∧
      ∀ j, b j = none → (scoreMove feat b j).score ≤ h0.score := by
  have hne : entries feat b ≠ [] := entries_ne_nil h
  have hsne : sortedEntries feat b ≠ [] := by
    intro hnil
    exact hne (List.nil_perm.mp (hnil ▸ sortedEntries_perm feat b))
  obtain ⟨h0, rest, hcons⟩ := List.exists_cons_of_ne_nil hsne
  have hmem : h0 ∈ entries feat b :=
    (sortedEntries_perm feat b).mem_iff.mp (hcons ▸ List.mem_cons_self h0 rest)
  obtain ⟨i0, hi0, hh0⟩ := mem_entries.mp hmem
  have hcell : h0.cellIndex = i0 := by rw [hh0, mkEntry_cellIndex]
  refine ⟨h0, by rw [hcons]; rfl, ?_, ?_, ?_, ?_, ?_⟩
  · unfold simulateQuantumMove
    rw [hcons]
    rfl
  · rw [hcell]; exact hi0
  · rw [hh0]; rfl
  · rw [hh0]; rfl
  · intro j hj
    have hmj : mkEntry feat b j ∈ sortedEntries feat b :=
      (sortedEntries_perm feat b).mem_iff.mpr (mem_entries.mpr ⟨j, hj, rfl⟩)
    rw [hcons] at hmj
    rcases List.mem_cons.mp hmj with heq | hmr
    · rw [← heq, mkEntry_score]
    · have hs := sortedEntries_sorted feat b
      rw [hcons] at hs
      have := List.rel_of_sorted_cons hs _ hmr
      rw [← mkEntry_score feat b j]
      exact this

/-- Stability relation: in the sorted output, a later entry either has
a strictly smaller score or (on a tie) a larger cell index. -/
def stableRel (x y : MoveEntry) : Prop :=
  y.score < x.score ∨ x.cellIndex < y.cellIndex

theorem orderedInsert_stable (a : MoveEntry) :
    ∀ l : List MoveEntry, (∀ x ∈ l, a.cellIndex < x.cellIndex) →
      l.Pairwise stableRel → (l.orderedInsert scoreGe a).Pairwise stableRel := by
  intro l
  induction l with
  | nil =>
      intro _ _
      simp [List.orderedInsert]
  | cons x xs ih =>
      intro hidx hp
      rw [List.pairwise_cons] at hp
      by_cases hle : scoreGe a x
      · rw [List.orderedInsert_of_le _ _ hle]
        refine List.Pairwise.cons ?_ (List.Pairwise.cons hp.1 hp.2)
        intro y hy
        rcases List.mem_cons.mp hy with rfl | hmem
        · exact Or.inr (hidx y (List.mem_cons_self y xs))
        · exact Or.inr (hidx y (List.mem_cons.mpr (Or.inr hmem)))
      · have hxa : a.score < x.score := by
          unfold scoreGe at hle
          exact lt_of_not_le hle
        rw [List.orderedInsert, if_neg hle]
        refine List.Pairwise.cons ?_ ?_
        · intro y hy
          rcases (List.mem_orderedInsert scoreGe).mp hy with rfl | hmem
          · exact Or.inl hxa
          · exact hp.1 y hmem
        · exact ih (fun z hz => hidx z (List.mem_cons.mpr (Or.inr hz))) hp.2

theorem insertionSort_stable :
    ∀ l : List MoveEntry, l.Pairwise (fun x y => x.cellIndex < y.cellIndex) →
      (List.insertionSort scoreGe l).Pairwise stableRel := by
  intro l
  induction l with
  | nil =>
      intro _
      simp [List.insertionSort]
  | cons a xs ih =>
      intro hp
      rw [List.pairwise_cons] at hp
      rw [List.insertionSort]
      refine orderedInsert_stable a _ ?_ (ih hp.2)
      intro x hx
      exact hp.1 x ((List.mem_insertionSort scoreGe).mp hx)

theorem entries_pairwise (feat : Board → QFeatures) (b : Board) :
    (entries feat b).Pairwise (fun x y => x.cellIndex < y.cellIndex) := by
  unfold entries
  refine List.Pairwise.filterMap _ ?_ (List.pairwise_lt_finRange 9)
  intro i j hij x hx y hy
  by_cases hi : b i = none
  · by_cases hj : b j = none
    · rw [if_pos hi] at hx
      rw [if_pos hj] at hy
      rw [Option.mem_def] at hx hy
      rw [← Option.some_inj.mp hx, ← Option.some_inj.mp hy]
      simpa [mkEntry_cellIndex] using hij
    · rw [if_neg hj] at hy
      cases hy
  · rw [if_neg hi] at hx
    cases hx

theorem sortedEntries_stable (feat : Board → QFeatures) (b : Board) :
    (sortedEntries feat b).Pairwise stableRel :=
  insertionSort_stable _ (entries_pairwise feat b)

/-! ## Concrete boards for instantiation -/

/-- O at 0 and 1, X at 3 and 4: O wins at cell 2 (spec scenario B). -/
def boardB : Board :=
  ![some Player.O, some Player.O, none, some Player.X, some Player.X,
    none, none, none, none]

/-- X at 0 and 1, O at 4: X would win at cell 2 (spec scenario C). -/
def boardC : Board :=
  ![some Player.X, some Player.X, none, none, some Player.O,
    none, none, none, none]

/-- O at 0 and 2, X at 1 and 3: cell 4 both creates an O fork and
blocks an X fork, and is the center. -/
def boardFork : Board :=
  ![some Player.O, some Player.X, some Player.O, some Player.X, none,
    none, none, none, none]

/-- X at 0, O at 1 and 3: placing O at the occupied cell 0 creates an
O fork. -/
def boardOcc : Board :=
  ![some Player.X, some Player.O, none, some Player.O, none,
    none, none, none, none]

/-- A full board. -/
def boardFull : Board := fun _ => some Player.X

/-- Shared helper: whenever an immediate O win exists, the selector
picks an immediate O-winning cell. -/
theorem selectsOWin (feat : Board → QFeatures) (hf : FeatOK feat) (b : Board)
    (hw : ∃ j, isWinningMove b j Player.O = true) :
    ∃ res, simulateQuantumMove feat b = some res ∧
      isWinningMove b res.chosenCell Player.O = true := by
  obtain ⟨j, hj⟩ := hw
  obtain ⟨h0, hhead, hsim, hcell, hscore, hstrat, hmax⟩ :=
    sim_spec feat b ⟨j, win_empty hj⟩
  refine ⟨_, hsim, ?_⟩
  show isWinningMove b h0.cellIndex Player.O = true
  by_contra hnot
  have hno : isWinningMove b h0.cellIndex Player.O = false := by simpa using hnot
  have hlt := scoreMove_lt_win feat hf hcell hno
  have hle := hmax j (win_empty hj)
  rw [(scoreMove_win feat hj).1, hscore] at hle
  exact absurd hle (not_le_of_lt hlt)

/-- C1: with an immediate O win on the board the selector chooses an
immediate O-winning cell, and 100000 strictly exceeds the score of
every legal non-winning candidate. -/
theorem claim1_win_dominates (feat : Board → QFeatures) (hf : FeatOK feat)
    (b : Board) (hw : ∃ j, isWinningMove b j Player.O = true) :
    (∃ res, simulateQuantumMove feat b = some res ∧
      isWinningMove b res.chosenCell Player.O = true) ∧
    ∀ c, b c = none → isWinningMove b c Player.O = false →
      (scoreMove feat b c).score < ((100000 : ℚ) : WithBot ℚ) :=
  ⟨selectsOWin feat hf b hw, fun _ hc hno => scoreMove_lt_win feat hf hc hno⟩

theorem claim1_witness :
    (FeatOK constFeatures ∧ (∃ j, isWinningMove boardB j Player.O = true)) ∧
    (∃ res, simulateQuantumMove constFeatures boardB = some res ∧
      isWinningMove boardB res.chosenCell Player.O = true) ∧
    ∀ c, boardB c = none → isWinningMove boardB c Player.O = false →
      (scoreMove constFeatures boardB c).score < ((100000 : ℚ) : WithBot ℚ) :=
  ⟨⟨constFeatures_ok, ⟨2, by decide⟩⟩,
   claim1_win_dominates constFeatures constFeatures_ok boardB ⟨2, by decide⟩⟩

/-- C2: with no O win available but an X win threatened, the selector
chooses a blocking cell; an O win, when available, takes priority. -/
theorem claim2_block_selected (feat : Board → QFeatures) (hf : FeatOK feat)
    (b : Board) (hno : ∀ j, isWinningMove b j Player.O = false)
    (hx : ∃ j, isWinningMove b j Player.X = true) :
    (∃ res, simulateQuantumMove feat b = some res ∧
      isWinningMove b res.chosenCell Player.X = true) ∧
    ∀ b2 : Board, (∃ j, isWinningMove b2 j Player.O = true) →
      ∃ res2, simulateQuantumMove feat b2 = some res2 ∧
        isWinningMove b2 res2.chosenCell Player.O = true := by
  refine ⟨?_, fun b2 hw2 => selectsOWin feat hf b2 hw2⟩
  obtain ⟨j, hj⟩ := hx
  obtain ⟨h0, hhead, hsim, hcell, hscore, hstrat, hmax⟩ :=
    sim_spec feat b ⟨j, win_empty hj⟩
  refine ⟨_, hsim, ?_⟩
  show isWinningMove b h0.cellIndex Player.X = true
  by_contra hnot
  have hnx : isWinningMove b h0.cellIndex Player.X = false := by simpa using hnot
  have hlt := scoreMove_lt_block feat hf hcell (hno h0.cellIndex) hnx
  have hle := hmax j (win_empty hj)
  rw [(scoreMove_block feat (hno j) hj).1, hscore] at hle
  exact absurd hle (not_le_of_lt hlt)

theorem claim2_witness :
    (FeatOK constFeatures ∧ (∀ j, isWinningMove boardC j Player.O = false) ∧
      (∃ j, isWinningMove boardC j Player.X = true)) ∧
    (∃ res, simulateQuantumMove constFeatures boardC = some res ∧
      isWinningMove boardC res.chosenCell Player.X = true) ∧
    ∀ b2 : Board, (∃ j, isWinningMove b2 j Player.O = true) →
      ∃ res2, simulateQuantumMove constFeatures b2 = some res2 ∧
        isWinningMove b2 res2.chosenCell Player.O = true :=
  ⟨⟨constFeatures_ok, by decide, ⟨2, by decide⟩⟩,
   claim2_block_selected constFeatures constFeatures_ok boardC (by decide) ⟨2, by decide⟩⟩

/-- C3: on a full board the selector fails (the empty `moveAnalysis`
makes the chosen-move access throw, modelled by `none`); with an empty
cell present it returns normally. -/
theorem claim3_full_board_fails (feat : Board → QFeatures) (b : Board) :
    ((∀ i, (b i).isSome) → simulateQuantumMove feat b = none) ∧
    ((∃ i, b i = none) → ∃ res, simulateQuantumMove feat b = some res) := by
  constructor
  · intro hful
    have hnil : entries feat b = [] := by
      unfold entries
      rw [List.filterMap_eq_nil_iff]
      intro i _
      rw [if_neg]
      intro hcon
      have hi := hful i
      rw [hcon] at hi
      simp at hi
    have hs : sortedEntries feat b = [] := by
      unfold sortedEntries
      rw [hnil]
      rfl
    unfold simulateQuantumMove
    rw [hs]
    rfl
  · intro h
    obtain ⟨h0, hhead, hsim, _⟩ := sim_spec feat b h
    exact ⟨_, hsim⟩

theorem claim3_witness :
    ((∀ i, (boardFull i).isSome) ∧ simulateQuantumMove constFeatures boardFull = none) ∧
    (boardB 2 = none) ∧ ∃ res, simulateQuantumMove constFeatures boardB = some res :=
  ⟨⟨by decide, (claim3_full_board_fails constFeatures boardFull).1 (by decide)⟩,
   by decide, (claim3_full_board_fails constFeatures boardB).2 ⟨2, by decide⟩⟩

/-- C7: the chosen cell is empty on the input board, and no candidate
in the returned list has the `-Infinity` score or the `invalid` tag. -/
theorem claim7_no_invalid (feat : Board → QFeatures) (b : Board)
    (h : ∃ i, b i = none) :
    ∃ res, simulateQuantumMove feat b = some res ∧ b res.chosenCell = none ∧
      ∀ m ∈ res.moveAnalysis, m.score ≠ ⊥ ∧ m.strategy ≠ "invalid" := by
  obtain ⟨h0, hhead, hsim, hcell, _, _, _⟩ := sim_spec feat b h
  refine ⟨_, hsim, hcell, ?_⟩
  intro m hm
  have hm2 : m ∈ entries feat b := (sortedEntries_perm feat b).mem_iff.mp hm
  obtain ⟨i, hi, rfl⟩ := mem_entries.mp hm2
  exact scoreMove_legal feat hi

theorem claim7_witness :
    (∃ i, boardB i = none) ∧
    ∃ res, simulateQuantumMove constFeatures boardB = some res ∧
      boardB res.chosenCell = none ∧
      ∀ m ∈ res.moveAnalysis, m.score ≠ ⊥ ∧ m.strategy ≠ "invalid" :=
  ⟨⟨2, by decide⟩, claim7_no_invalid constFeatures boardB ⟨2, by decide⟩⟩

/-- C6: the returned list holds exactly the empty cells, is sorted
descending by score, equal scores keep ascending cell-index (stable)
order, and the chosen cell is the head of the list. -/
theorem claim6_ranked_list (feat : Board → QFeatures) (b : Board)
    (h : ∃ i, b i = none) :
    ∃ res h0, simulateQuantumMove feat b = some res ∧
      res.moveAnalysis.head? = some h0 ∧
      res.chosenCell = h0.cellIndex ∧
      List.Perm (res.moveAnalysis.map (fun m => m.cellIndex))
        ((List.finRange 9).filter (fun i => decide (b i = none))) ∧
      List.Sorted scoreGe res.moveAnalysis ∧
      res.moveAnalysis.Pairwise
        (fun x y => x.score = y.score → x.cellIndex < y.cellIndex) := by
  obtain ⟨h0, hhead, hsim, _⟩ := sim_spec feat b h
  refine ⟨_, h0, hsim, hhead, rfl, ?_, sortedEntries_sorted feat b, ?_⟩
  · have hp := (sortedEntries_perm feat b).map (fun m => m.cellIndex)
    rw [entries_map_cellIndex] at hp
    exact hp
  · refine (sortedEntries_stable feat b).imp ?_
    intro x y hxy heq
    rcases hxy with hlt | hidx
    · rw [heq] at hlt
      exact absurd hlt (lt_irrefl _)
    · exact hidx

theorem claim6_witness :
    (∃ i, boardB i = none) ∧
    ∃ res h0, simulateQuantumMove constFeatures boardB = some res ∧
      res.moveAnalysis.head? = some h0 ∧
      res.chosenCell = h0.cellIndex ∧
      List.Perm (res.moveAnalysis.map (fun m => m.cellIndex))
        ((List.finRange 9).filter (fun i => decide (boardB i = none))) ∧
      List.Sorted scoreGe res.moveAnalysis ∧
      res.moveAnalysis.Pairwise
        (fun x y => x.score = y.score → x.cellIndex < y.cellIndex) :=
  ⟨⟨2, by decide⟩, claim6_ranked_list constFeatures boardB ⟨2, by decide⟩⟩

/-- C4 counterexample: at cell 4 of `boardFork` the move creates a fork
for O (and is no win/block), yet the tag is `center`, not `fork` — the
`block_fork` and `center` tiers overwrote it. -/
theorem claim4_counterexample :
    boardFork 4 = none ∧
    isWinningMove boardFork 4 Player.O = false ∧
    isWinningMove boardFork 4 Player.X = false ∧
    createsFork boardFork 4 Player.O = true ∧
    (scoreMove constFeatures boardFork 4).strategy = "center" ∧
    (scoreMove constFeatures boardFork 4).strategy ≠ "fork" :=
  ⟨by decide, by decide, by decide, by decide, by decide, by decide⟩

/-- C4 amended: in the non-win non-block branch the `fork`,
`block_fork`, `center` and `opposite_corner` assignments each overwrite
any earlier tag unconditionally (the last matching of these four tiers
wins); only the `corner` and `edge` tiers preserve a previously set
tag, applying only while the tag is still the default `quantum`. -/
theorem claim4_amended (b : Board) (c : Fin 9) :
    (oppCornerCond b c → elseTag b c = "opposite_corner") ∧
    (¬ oppCornerCond b c → (c = 4 ∧ b 4 = none) → elseTag b c = "center") ∧
    (¬ oppCornerCond b c → ¬(c = 4 ∧ b 4 = none) →
      createsFork b c Player.X = true → elseTag b c = "block_fork") ∧
    (¬ oppCornerCond b c → ¬(c = 4 ∧ b 4 = none) →
      createsFork b c Player.X = false → createsFork b c Player.O = true →
      elseTag b c = "fork") := by
  refine ⟨?_, ?_, ?_, ?_⟩
  · intro h1
    simp [elseTag, h1]
  · intro h1 h2
    obtain ⟨h2a, h2b⟩ := h2
    subst h2a
    simp [elseTag, h1, h2b]
  · intro h1 h2 h3
    simp [elseTag, h1, h2, h3]
  · intro h1 h2 h3 h4
    simp [elseTag, h1, h2, h3, h4]

theorem claim4_amended_witness :
    ¬ oppCornerCond boardFork 4 ∧ ((4 : Fin 9) = 4 ∧ boardFork 4 = none) ∧
      elseTag boardFork 4 = "center" :=
  ⟨by decide, ⟨rfl, by decide⟩,
   (claim4_amended boardFork 4).2.1 (by decide) ⟨rfl, by decide⟩⟩

/-- C5 counterexample: an immediate win is tagged with the literal
`WINNING MOVE!`, which is not the spec's `winning_move` and lies
outside the spec's enumerated tag set. -/
theorem claim5_counterexample :
    isWinningMove boardB 2 Player.O = true ∧
    (scoreMove constFeatures boardB 2).strategy = "WINNING MOVE!" ∧
    (scoreMove constFeatures boardB 2).strategy ≠ "winning_move" ∧
    (scoreMove constFeatures boardB 2).strategy ∉
      ["winning_move", "block_win", "fork", "block_fork", "center",
       "opposite_corner", "corner", "edge", "quantum", "invalid"] :=
  ⟨by decide, by decide, by decide, by decide⟩

/-- C5 amended: the tag is one of the ten literals actually used by the
code — the win tag is `WINNING MOVE!` and the block tag is `BLOCK WIN!`
(not the snake-case names); the remaining eight match the spec. -/
theorem claim5_amended (feat : Board → QFeatures) (b : Board) (c : Fin 9) :
    (scoreMove feat b c).strategy ∈
      ["invalid", "WINNING MOVE!", "BLOCK WIN!", "fork", "block_fork",
       "center", "opposite_corner", "corner", "edge", "quantum"] ∧
    (isWinningMove b c Player.O = true →
      (scoreMove feat b c).strategy = "WINNING MOVE!") ∧
    (isWinningMove b c Player.O = false → isWinningMove b c Player.X = true →
      (scoreMove feat b c).strategy = "BLOCK WIN!") := by
  refine ⟨?_, fun h => (scoreMove_win feat h).2,
    fun hno hx => (scoreMove_block feat hno hx).2⟩
  unfold scoreMove
  split_ifs with h1 h2 h3
  · simp
  · simp
  · simp
  · simp only [elseTag]
    split_ifs <;> simp

theorem claim5_amended_witness :
    isWinningMove boardB 2 Player.O = true ∧
      (scoreMove constFeatures boardB 2).strategy = "WINNING MOVE!" :=
  ⟨by decide, (claim5_amended constFeatures boardB 2).2.1 (by decide)⟩

/-- Number of cells among a line's three cells equal to `v`. -/
def threeCount (x y z : Cell) (v : Cell) : ℕ :=
  (if x = v then 1 else 0) + (if y = v then 1 else 0) + (if z = v then 1 else 0)

/-- The spec's fork characterization: after the hypothetical placement,
a line is a threat when exactly 2 of its cells equal the symbol and
exactly 1 is empty; a fork is at least 2 threats among the 8 lines. -/
def forkSpec (b : Board) (c : Fin 9) (s : Player) : Prop :=
  2 ≤ winPatterns.countP fun L =>
    let t := Function.update b c (some s)
    decide (threeCount (t L.1) (t L.2.1) (t L.2.2) (some s) = 2 ∧
            threeCount (t L.1) (t L.2.1) (t L.2.2) none = 1)

theorem threat_line_iff : ∀ (x y z : Cell) (s : Player),
    ((([x, y, z].filter fun w => w == some s).length == 2) &&
      (([x, y, z].filter fun w => w == none).length == 1)) = true ↔
    (threeCount x y z (some s) = 2 ∧ threeCount x y z none = 1) := by
  decide

/-- C8: `createsFork` agrees with the spec's threat-counting
characterization on every board, cell and symbol. -/
theorem claim8_fork_iff : ∀ (b : Board) (c : Fin 9) (s : Player),
    createsFork b c s = true ↔ forkSpec b c s := by
  intro b c s
  simp only [createsFork, forkSpec, decide_eq_true_iff]
  rw [← List.countP_eq_length_filter]
  refine Iff.of_eq (congrArg (fun n => 2 ≤ n) ?_)
  apply List.countP_congr
  intro L _
  exact (threat_line_iff _ _ _ s).trans decide_eq_true_iff.symm

/-- C9: on an occupied cell `isWinningMove` reports `false` (total,
no fault). -/
theorem claim9_occupied_false (b : Board) (c : Fin 9) (s : Player)
    (h : (b c).isSome) : isWinningMove b c s = false := by
  simp [isWinningMove, h]

theorem claim9_witness :
    (boardB 0).isSome = true ∧ isWinningMove boardB 0 Player.O = false :=
  ⟨by decide, claim9_occupied_false boardB 0 Player.O (by decide)⟩

/-- C10: `createsFork` never reads the queried cell — clearing it first
changes nothing — and on `boardOcc` it returns `true` for the occupied
cell 0, unlike `isWinningMove`. -/
theorem claim10_overwrites :
    (∀ (b : Board) (c : Fin 9) (s : Player),
      createsFork b c s = createsFork (Function.update b c none) c s) ∧
    createsFork boardOcc 0 Player.O = true ∧
    (boardOcc 0).isSome = true ∧
    isWinningMove boardOcc 0 Player.O = false := by
  refine ⟨?_, by decide, by decide, by decide⟩
  intro b c s
  unfold createsFork
  rw [Function.update_idem]
